import Mathlib

/-!
Shallow embedding of the hardware-facing core of the `os-dev` kernel:
the physical-frame allocator (`src/memory/mod.rs`), the fixed-size-class
heap allocator (`src/memory/fixed_size_heap.rs`) and the legacy dual
interrupt-controller driver (`src/interrupts/pic.rs`), together with
theorems about them.

Machine integers are modelled as `Nat` with explicit `% 2 ^ w` where a
byte/word boundary matters.  Raw in-memory linked-list nodes are modelled
by an explicit store `Nat → Option (Option Nat)` mapping an address to the
`next` field of the `MemoryNode` written there (if any).  Hardware port
I/O is modelled by an oracle `hw : Nat → Nat` giving the byte an `in`
instruction on a port returns, and by an explicit trace of I/O events.
-/

namespace OsDev

/-! ### Frame allocator — `src/memory/mod.rs` -/

/-- `bootloader::bootinfo::MemoryRegionType` (the variants the kernel can see;
only `Usable` is ever treated specially by the allocator). -/
inductive MemoryRegionType
  | Usable
  | InUse
  | Reserved
  | AcpiReclaimable
  deriving DecidableEq, Repr

/-- `bootloader::bootinfo::FrameRange`: a region expressed in 4 KiB frame
numbers, so `start_addr`/`end_addr` are 4096-aligned by construction. -/
structure FrameRange where
  start_frame_number : Nat
  end_frame_number : Nat
  deriving DecidableEq, Repr

def FrameRange.start_addr (r : FrameRange) : Nat := r.start_frame_number * 4096

def FrameRange.end_addr (r : FrameRange) : Nat := r.end_frame_number * 4096

/-- `bootloader::bootinfo::MemoryRegion`. -/
structure MemoryRegion where
  range : FrameRange
  region_type : MemoryRegionType
  deriving DecidableEq, Repr

/-- `bootloader::bootinfo::MemoryMap`: the firmware-supplied region list. -/
abbrev MemoryMap := List MemoryRegion

/-- Rust `(start..stop).step_by(4096)`: the addresses
`start, start + 4096, start + 2·4096, …` that are `< stop`. -/
def stepBy4096 (start stop : Nat) : List Nat :=
  (List.range ((stop - start + 4095) / 4096)).map fun k => start + k * 4096

/-- `PhysFrame::containing_address`: aligns an address down to 4096. -/
def containing_address (addr : Nat) : Nat := addr / 4096 * 4096

/-- `InternalFrameAllocator::usable_frames`: filters the map for
`Usable` regions, flattens each into its 4 KiB-stepped addresses and maps
each address to the frame containing it.  A frame is identified by its
start address. -/
def usable_frames (memory_map : MemoryMap) : List Nat :=
  ((memory_map.filter fun r => r.region_type == MemoryRegionType.Usable).flatMap
    fun r => stepBy4096 r.range.start_addr r.range.end_addr).map containing_address

/-- `InternalFrameAllocator`: the memory map plus the strictly increasing
position counter `next`. -/
structure InternalFrameAllocator where
  memory_map : MemoryMap
  next : Nat
  deriving Repr

/-- `InternalFrameAllocator::new`. -/
def InternalFrameAllocator.new (memory_map : MemoryMap) : InternalFrameAllocator :=
  { memory_map := memory_map, next := 0 }

/-- `FrameAllocator::allocate_frame`: takes the `next`-th element of the
usable-frame sequence and increments `next`. -/
def allocate_frame (s : InternalFrameAllocator) : Option Nat × InternalFrameAllocator :=
  ((usable_frames s.memory_map)[s.next]?, { s with next := s.next + 1 })

/-- The list of results of the first `n` successive `allocate_frame` calls. -/
def runCalls : InternalFrameAllocator → Nat → List (Option Nat)
  | _, 0 => []
  | s, n + 1 => (allocate_frame s).1 :: runCalls (allocate_frame s).2 n

/-- The allocator state after `k` further `allocate_frame` calls. -/
def applyCalls (s : InternalFrameAllocator) : Nat → InternalFrameAllocator
  | 0 => s
  | k + 1 => applyCalls (allocate_frame s).2 k

/-! ### Fixed-size-class heap allocator — `src/memory/fixed_size_heap.rs` -/

/-- `BLOCK_SIZES`. -/
def BLOCK_SIZES : List Nat := [8, 16, 32, 64, 128, 256, 512, 1024, 2048, 4096]

/-- `BLOCK_DISTRIBUTIONS`: ten copies of the `f32` value `10.0 / 100.0`.
The IEEE-754 binary32 number nearest to 0.1 is exactly
`13421773 / 2 ^ 27`; each entry is that exact rational as a
numerator/denominator pair (the denominator is a power of two). -/
def BLOCK_DISTRIBUTIONS : List (Nat × Nat) := List.replicate 10 (13421773, 134217728)

/-- Round the rational `a / b` (with `b > 0`) to the nearest integer,
ties to even. -/
def rne (a b : Nat) : Nat :=
  let q := a / b
  let r := a % b
  if 2 * r < b then q else if b < 2 * r then q + 1 else if q % 2 = 0 then q else q + 1

/-- Fuel-driven floor of the base-2 logarithm (structural recursion so
that concrete instances reduce inside the kernel). -/
def log2Aux : Nat → Nat → Nat
  | 0, _ => 0
  | fuel + 1, n => if n < 2 then 0 else log2Aux fuel (n / 2) + 1

/-- `⌊log₂ n⌋` (0 for `n = 0`): `n` itself is always enough fuel. -/
def log2 (n : Nat) : Nat := log2Aux n n

/-- Round a natural number to 24 significant binary digits (round to
nearest, ties to even): the significand rounding step of IEEE-754
binary32 arithmetic on values whose exponent is in normal range. -/
def roundSig24 (n : Nat) : Nat :=
  if n < 16777216 then n
  else
    let e := log2 n - 23
    rne n (2 ^ e) * 2 ^ e

/-- Models `(BLOCK_DISTRIBUTIONS[index] * heap_size as f32) as usize` from
`FixedSizeAllocator::init`, exactly: `heap_size` is rounded to binary32
(`roundSig24`; a `usize` is far below the binary32 overflow threshold),
the product with the distribution entry `dist.1 / dist.2` is formed
exactly and rounded back to binary32 — since `dist.2` is a power of two
this is `roundSig24` of the numerator — and the `as usize` cast truncates
toward zero, i.e. divides by `dist.2` rounding down. -/
def memoryShare (dist : Nat × Nat) (heap_size : Nat) : Nat :=
  roundSig24 (dist.1 * roundSig24 heap_size) / dist.2

/-- Rust's `position(p)` on an iterator over a list: index of the first
element satisfying `p`. -/
def position (p : α → Bool) : List α → Option Nat
  | [] => none
  | a :: as => if p a then some 0 else (position p as).map (· + 1)

/-- `core::alloc::Layout`: a request shape. -/
structure Layout where
  size : Nat
  align : Nat
  deriving DecidableEq, Repr

/-- `FixedSizeAllocator`: the per-class free-list heads (an array of
`BLOCK_SIZES.len()` optional node addresses) together with the store of
`MemoryNode`s written into heap memory.  `mem a = some nxt` means a
`MemoryNode { next: nxt }` has been written at address `a`. -/
structure FixedSizeAllocator where
  heads : List (Option Nat)
  mem : Nat → Option (Option Nat)

/-- Write a `MemoryNode` with next-field `v` at address `a`. -/
def memUpdate (m : Nat → Option (Option Nat)) (a : Nat) (v : Option Nat) :
    Nat → Option (Option Nat) :=
  fun x => if x = a then some v else m x

/-- `FixedSizeAllocator::new`: every head empty, nothing written. -/
def FixedSizeAllocator.new : FixedSizeAllocator :=
  { heads := List.replicate 10 none, mem := fun _ => none }

/-- The loop body of `FixedSizeAllocator::create_blocks`: `n` blocks remain,
the next one goes at address `addr`, `prev` is the address of the
previously written node (`none` on the first iteration, in which case the
class head is set instead of a `next` field). -/
def createBlocksAux (head_index block_size : Nat) :
    Nat → Nat → Option Nat → FixedSizeAllocator → FixedSizeAllocator
  | 0, _, _, s => s
  | n + 1, addr, prev, s =>
    let s1 : FixedSizeAllocator := { s with mem := memUpdate s.mem addr none }
    let s2 : FixedSizeAllocator :=
      match prev with
      | none => { s1 with heads := s1.heads.set head_index (some addr) }
      | some p => { s1 with mem := memUpdate s1.mem p (some addr) }
    createBlocksAux head_index block_size n (addr + block_size) (some addr) s2

/-- `FixedSizeAllocator::create_blocks`: carves `count` blocks of
`block_size` bytes starting at `start_address`, writing a free node into
each and linking them; the head index is recovered by searching
`BLOCK_SIZES` for `block_size` (the source `unwrap`s; the out-of-range
default can only be reached with a size not in `BLOCK_SIZES`). -/
def FixedSizeAllocator.create_blocks (s : FixedSizeAllocator)
    (block_size count start_address : Nat) : FixedSizeAllocator :=
  let head_index := (position (fun sz => sz == block_size) BLOCK_SIZES).getD BLOCK_SIZES.length
  createBlocksAux head_index block_size count start_address none s

/-- The loop of `FixedSizeAllocator::init` over the size classes that
remain, carrying the running distribution index and memory offset. -/
def initAux (heap_size : Nat) :
    List Nat → Nat → Nat → FixedSizeAllocator → FixedSizeAllocator
  | [], _, _, s => s
  | block_size :: rest, index, offset, s =>
    let memory_share := memoryShare (BLOCK_DISTRIBUTIONS.getD index (0, 1)) heap_size
    let block_count := memory_share / block_size
    let s1 := s.create_blocks block_size block_count offset
    initAux heap_size rest (index + 1) (offset + memory_share) s1

/-- `FixedSizeAllocator::init`. -/
def FixedSizeAllocator.init (s : FixedSizeAllocator) (heap_address heap_size : Nat) :
    FixedSizeAllocator :=
  initAux heap_size BLOCK_SIZES 0 heap_address s

/-- `FixedSizeAllocator::block_size_for`: index of the smallest block size
at least `max(layout.size, layout.align)`. -/
def block_size_for (layout : Layout) : Option Nat :=
  position (fun s => decide (layout.size.max layout.align ≤ s)) BLOCK_SIZES

/-- `GlobalAlloc::alloc` for `Mutex<FixedSizeAllocator>` (the lock is a
no-op in this sequential model; the diagnostic `println!`s on the failure
paths have no observable effect here).  Returns the allocated address
(`none` models the null pointer) and the new allocator state.  On success
the head node is unlinked: `node.next.take()` clears the node's stored
next-field and the class head becomes that next-field. -/
def FixedSizeAllocator.alloc (s : FixedSizeAllocator) (layout : Layout) :
    Option Nat × FixedSizeAllocator :=
  match block_size_for layout with
  | some index =>
    match s.heads.getD index none with
    | some node =>
      let next_node := (s.mem node).getD none
      (some node,
        { heads := s.heads.set index next_node, mem := memUpdate s.mem node none })
    | none => (none, s)
  | none => (none, s)

/-- `GlobalAlloc::dealloc` for `Mutex<FixedSizeAllocator>`: rederives the
class from the layout, writes a fresh node (whose next-field is the old
head) at `ptr` and makes it the new head.  When no class fits, only a
diagnostic is printed and the state is untouched. -/
def FixedSizeAllocator.dealloc (s : FixedSizeAllocator) (ptr : Nat) (layout : Layout) :
    FixedSizeAllocator :=
  match block_size_for layout with
  | some index =>
    let head := s.heads.getD index none
    { heads := s.heads.set index (some ptr), mem := memUpdate s.mem ptr head }
  | none => s

/-- Extract the free list headed at `hd` by chasing stored next-fields;
`fuel` bounds the walk (a `none` store entry means a node was never
written there — the walk stops). -/
def freeListAux (m : Nat → Option (Option Nat)) : Option Nat → Nat → List Nat
  | none, _ => []
  | some _, 0 => []
  | some a, fuel + 1 =>
    a ::
      match m a with
      | none => []
      | some nxt => freeListAux m nxt fuel

/-- The free list of size class `i`. -/
def freeList (s : FixedSizeAllocator) (i fuel : Nat) : List Nat :=
  freeListAux s.mem (s.heads.getD i none) fuel

/-! ### Legacy interrupt-controller driver — `src/interrupts/pic.rs` -/

/-- One hardware port access: `out port, val` or `in port` returning `val`. -/
inductive IOEvent
  | writeEv (port val : Nat)
  | readEv (port val : Nat)
  deriving DecidableEq, Repr

/-- `PIC`: command port, data port and the optional saved mask byte. -/
structure PIC where
  command_port : Nat
  data_port : Nat
  masks : Option Nat
  deriving DecidableEq, Repr

/-- `PIC::new`. -/
def PIC.new (command_port data_port : Nat) : PIC :=
  { command_port := command_port, data_port := data_port, masks := none }

/-- `PIC::write_command`: one byte written to the command port. -/
def PIC.write_command (p : PIC) (command : Nat) : List IOEvent :=
  [IOEvent.writeEv p.command_port (command % 256)]

/-- `PIC::write_data`: one byte written to the data port. -/
def PIC.write_data (p : PIC) (data : Nat) : List IOEvent :=
  [IOEvent.writeEv p.data_port (data % 256)]

/-- `PIC::save_masks`: reads the data port (the oracle `hw` supplies the
byte) and stores it in `masks`. -/
def PIC.save_masks (hw : Nat → Nat) (p : PIC) : PIC × List IOEvent :=
  ({ p with masks := some (hw p.data_port % 256) },
    [IOEvent.readEv p.data_port (hw p.data_port % 256)])

/-- `PIC::restore_masks`: writes the saved mask byte back, if one was saved. -/
def PIC.restore_masks (p : PIC) : List IOEvent :=
  match p.masks with
  | some m => [IOEvent.writeEv p.data_port (m % 256)]
  | none => []

/-- `PICPair`. -/
structure PICPair where
  master_pic : PIC
  slave_pic : PIC
  deriving DecidableEq, Repr

/-- `PICPair::new`: master at ports 0x20/0x21, slave at 0xA0/0xA1. -/
def PICPair.new : PICPair :=
  { master_pic := PIC.new 0x20 0x21, slave_pic := PIC.new 0xA0 0xA1 }

/-- The `wait` closure of `PICPair::initialize`: a delay byte written to the
unused port 0x80. -/
def waitEvent : List IOEvent := [IOEvent.writeEv 0x80 0]

/-- `PICPair::initialize` (the 4-byte remap handshake; named
`initializeBoth` here): saves both mask bytes, performs
initialize-command / vector-offset / cascade-identity / mode-byte writes
on both controllers with a delay write after each handshake byte, then
restores both saved masks.  Returns the updated pair and the I/O trace. -/
def PICPair.initializeBoth (hw : Nat → Nat) (pair : PICPair)
    (pic_1_offset pic_2_offset : Nat) : PICPair × List IOEvent :=
  let (m1, t1) := pair.master_pic.save_masks hw
  let (s1, t2) := pair.slave_pic.save_masks hw
  let trace :=
    t1 ++ t2 ++
    m1.write_command 0x11 ++ waitEvent ++
    s1.write_command 0x11 ++ waitEvent ++
    m1.write_data pic_1_offset ++ waitEvent ++
    s1.write_data pic_2_offset ++ waitEvent ++
    m1.write_data 4 ++ waitEvent ++
    s1.write_data 2 ++ waitEvent ++
    m1.write_data 0x01 ++ waitEvent ++
    s1.write_data 0x01 ++ waitEvent ++
    m1.restore_masks ++ s1.restore_masks
  ({ master_pic := m1, slave_pic := s1 }, trace)

/-- `PICPair::set_mask`: picks the controller owning `irq`, reads its data
port, flips the local bit and writes the result back (`!mask` is the u8
complement `255 ^^^ mask`).  Returns the (unchanged) pair and the trace. -/
def PICPair.set_mask (hw : Nat → Nat) (pair : PICPair) (irq : Nat) (enable : Bool) :
    PICPair × List IOEvent :=
  let pic := if irq < 8 then pair.master_pic else pair.slave_pic
  let line := if irq < 8 then irq else irq - 8
  let current_masks := hw pic.data_port % 256
  let mask := (1 <<< line) % 256
  let value := if enable then current_masks ||| mask else current_masks &&& (255 ^^^ mask)
  (pair, [IOEvent.readEv pic.data_port current_masks, IOEvent.writeEv pic.data_port (value % 256)])

/-- `PICPair::read_isr`: issues command 0x0B to both command ports, reads
both command ports and combines the bytes, slave high, master low. -/
def PICPair.read_isr (hw : Nat → Nat) (pair : PICPair) : Nat × List IOEvent :=
  let pic_1_irr := hw pair.master_pic.command_port % 256
  let pic_2_irr := hw pair.slave_pic.command_port % 256
  ((pic_2_irr <<< 8) ||| pic_1_irr,
    pair.master_pic.write_command 0x0b ++ pair.slave_pic.write_command 0x0b ++
      [IOEvent.readEv pair.master_pic.command_port pic_1_irr,
        IOEvent.readEv pair.slave_pic.command_port pic_2_irr])

/-- `PICPair::check_for_spurious`: `irq >= 16` is never spurious; otherwise
the combined in-service register is read and the interrupt is spurious
exactly when the `irq` bit is clear. -/
def PICPair.check_for_spurious (hw : Nat → Nat) (pair : PICPair) (irq : Nat) :
    Bool × List IOEvent :=
  if 16 ≤ irq then (false, [])
  else
    let (pics_irr, trace) := pair.read_isr hw
    let expected := (1 <<< irq) % 65536
    (decide (pics_irr &&& expected ≠ expected), trace)

/-- `PICPair::end_of_interrupt_master_only`: one end-of-interrupt command to
the master. -/
def PICPair.end_of_interrupt_master_only (pair : PICPair) : List IOEvent :=
  pair.master_pic.write_command 0x20

/-- `PICPair::end_of_interrupt`: for `irq >= 8` first one end-of-interrupt
command to the slave, then always the master-only acknowledgment. -/
def PICPair.end_of_interrupt (pair : PICPair) (irq : Nat) : List IOEvent :=
  (if 8 ≤ irq then pair.slave_pic.write_command 0x20 else []) ++
    pair.end_of_interrupt_master_only

/-! ### Theorems about the interrupt-controller driver -/

/-- C6: `end_of_interrupt(line)` for `line` in `8..16` issues exactly one
end-of-interrupt command write to the slave controller followed by exactly
one to the master controller (slave first); for `line` in `0..8` it issues
exactly one command write to the master only and none to the slave. -/
theorem end_of_interrupt_write_counts (pair : PICPair) (irq : Nat) :
    (8 ≤ irq → irq < 16 →
      pair.end_of_interrupt irq =
        [IOEvent.writeEv pair.slave_pic.command_port 0x20,
          IOEvent.writeEv pair.master_pic.command_port 0x20]) ∧
    (irq < 8 →
      pair.end_of_interrupt irq = [IOEvent.writeEv pair.master_pic.command_port 0x20]) := by
  constructor
  · intro h8 _
    simp [PICPair.end_of_interrupt, PICPair.end_of_interrupt_master_only,
      PIC.write_command, h8]
  · intro h8
    simp [PICPair.end_of_interrupt, PICPair.end_of_interrupt_master_only,
      PIC.write_command, Nat.not_le.mpr h8]

theorem end_of_interrupt_write_counts_witness :
    PICPair.new.end_of_interrupt 9 =
      [IOEvent.writeEv 0xA0 0x20, IOEvent.writeEv 0x20 0x20] ∧
    PICPair.new.end_of_interrupt 3 = [IOEvent.writeEv 0x20 0x20] :=
  ⟨(end_of_interrupt_write_counts PICPair.new 9).1 (by decide) (by decide),
    (end_of_interrupt_write_counts PICPair.new 3).2 (by decide)⟩

/-- C5: `check_for_spurious(line)` returns `false` for every `line ≥ 16`
regardless of controller state; for `line < 16` it reads the in-service
registers of both controllers — issuing command 0x0B to each command port
and reading each command port back, slave bits in the high byte and master
bits in the low byte — and reports spurious exactly when the bit
corresponding to `line` is not set. -/
theorem check_for_spurious_spec (hw : Nat → Nat) (pair : PICPair) (irq : Nat) :
    (16 ≤ irq → pair.check_for_spurious hw irq = (false, [])) ∧
    (irq < 16 →
      (pair.check_for_spurious hw irq).2 =
        [IOEvent.writeEv pair.master_pic.command_port 0x0b,
          IOEvent.writeEv pair.slave_pic.command_port 0x0b,
          IOEvent.readEv pair.master_pic.command_port (hw pair.master_pic.command_port % 256),
          IOEvent.readEv pair.slave_pic.command_port (hw pair.slave_pic.command_port % 256)] ∧
      ((pair.check_for_spurious hw irq).1 = true ↔
        (((hw pair.slave_pic.command_port % 256) <<< 8) |||
            (hw pair.master_pic.command_port % 256)).testBit irq = false)) := by
  constructor
  · intro h16
    simp [PICPair.check_for_spurious, h16]
  · intro h16
    have hlt : ¬ 16 ≤ irq := Nat.not_le.mpr h16
    have hexp : (1 <<< irq) % 65536 = 2 ^ irq := by
      rw [Nat.one_shiftLeft]
      exact Nat.mod_eq_of_lt (Nat.pow_lt_pow_right (by omega) h16)
    constructor
    · simp [PICPair.check_for_spurious, hlt, PICPair.read_isr, PIC.write_command]
    · simp only [PICPair.check_for_spurious, hlt, if_false, PICPair.read_isr, hexp,
        decide_eq_true_eq]
      rw [Nat.and_two_pow]
      cases hbit : (((hw pair.slave_pic.command_port % 256) <<< 8) |||
          hw pair.master_pic.command_port % 256).testBit irq <;>
        simp [hbit, (Nat.pos_pow_of_pos irq (by omega : 0 < 2)).ne]

theorem check_for_spurious_spec_witness :
    PICPair.new.check_for_spurious (fun _ => 0) 20 = (false, []) ∧
    (PICPair.new.check_for_spurious (fun _ => 0) 5).1 = true :=
  ⟨(check_for_spurious_spec (fun _ => 0) PICPair.new 20).1 (by decide),
    ((check_for_spurious_spec (fun _ => 0) PICPair.new 5).2 (by decide)).2.mpr (by decide)⟩

/-- C7: `initialize(offset_master, offset_slave)` first reads both
controllers' mask bytes, performs the 4-byte remap handshake on both
controllers in order — initialize command 0x11 on each command port, then
the vector-offset byte, then the cascade-identity byte (4 to the master,
2 to the slave), then the mode byte 0x01, each on the data ports, with a
delay write to port 0x80 between handshake bytes — and finishes by writing
back to each data port exactly the mask byte read from it before the
handshake began. -/
theorem initializeBoth_trace (hw : Nat → Nat) (pair : PICPair) (off1 off2 : Nat)
    (h1 : off1 < 256) (h2 : off2 < 256) :
    (pair.initializeBoth hw off1 off2).2 =
      [IOEvent.readEv pair.master_pic.data_port (hw pair.master_pic.data_port % 256),
        IOEvent.readEv pair.slave_pic.data_port (hw pair.slave_pic.data_port % 256),
        IOEvent.writeEv pair.master_pic.command_port 0x11, IOEvent.writeEv 0x80 0,
        IOEvent.writeEv pair.slave_pic.command_port 0x11, IOEvent.writeEv 0x80 0,
        IOEvent.writeEv pair.master_pic.data_port off1, IOEvent.writeEv 0x80 0,
        IOEvent.writeEv pair.slave_pic.data_port off2, IOEvent.writeEv 0x80 0,
        IOEvent.writeEv pair.master_pic.data_port 4, IOEvent.writeEv 0x80 0,
        IOEvent.writeEv pair.slave_pic.data_port 2, IOEvent.writeEv 0x80 0,
        IOEvent.writeEv pair.master_pic.data_port 1, IOEvent.writeEv 0x80 0,
        IOEvent.writeEv pair.slave_pic.data_port 1, IOEvent.writeEv 0x80 0,
        IOEvent.writeEv pair.master_pic.data_port (hw pair.master_pic.data_port % 256),
        IOEvent.writeEv pair.slave_pic.data_port (hw pair.slave_pic.data_port % 256)] := by
  simp [PICPair.initializeBoth, PIC.save_masks, PIC.write_command, PIC.write_data,
    PIC.restore_masks, waitEvent, Nat.mod_eq_of_lt h1, Nat.mod_eq_of_lt h2]

theorem initializeBoth_trace_witness :
    (PICPair.new.initializeBoth (fun _ => 171) 32 40).2 =
      [IOEvent.readEv 0x21 171, IOEvent.readEv 0xA1 171,
        IOEvent.writeEv 0x20 0x11, IOEvent.writeEv 0x80 0,
        IOEvent.writeEv 0xA0 0x11, IOEvent.writeEv 0x80 0,
        IOEvent.writeEv 0x21 32, IOEvent.writeEv 0x80 0,
        IOEvent.writeEv 0xA1 40, IOEvent.writeEv 0x80 0,
        IOEvent.writeEv 0x21 4, IOEvent.writeEv 0x80 0,
        IOEvent.writeEv 0xA1 2, IOEvent.writeEv 0x80 0,
        IOEvent.writeEv 0x21 1, IOEvent.writeEv 0x80 0,
        IOEvent.writeEv 0xA1 1, IOEvent.writeEv 0x80 0,
        IOEvent.writeEv 0x21 171, IOEvent.writeEv 0xA1 171] :=
  initializeBoth_trace (fun _ => 171) PICPair.new 32 40 (by decide) (by decide)

/-- `Nat.testBit` of the byte 255: exactly the low eight bits are set. -/
theorem testBit_255 (b : Nat) : Nat.testBit 255 b = decide (b < 8) := by
  rw [show (255 : Nat) = 2 ^ 8 - 1 by norm_num, Nat.testBit_two_pow_sub_one]

/-- The byte written by `set_mask` — `cur ||| mask` or `cur &&& !mask` for a
single-bit `mask` — stays a byte, sets bit `line` to `enable` and leaves
every other bit of `cur` unchanged. -/
theorem byte_update_testBit (cur line : Nat) (enable : Bool)
    (hcur : cur < 256) (hl : line < 8) :
    (if enable then cur ||| 2 ^ line else cur &&& (255 ^^^ 2 ^ line)) < 256 ∧
    (if enable then cur ||| 2 ^ line else cur &&& (255 ^^^ 2 ^ line)).testBit line = enable ∧
    ∀ b, b ≠ line →
      (if enable then cur ||| 2 ^ line else cur &&& (255 ^^^ 2 ^ line)).testBit b
        = cur.testBit b := by
  cases enable
  · simp only [Bool.false_eq_true, if_false]
    refine ⟨Nat.lt_of_le_of_lt Nat.and_le_left hcur, ?_, ?_⟩
    · simp [Nat.testBit_and, Nat.testBit_xor, testBit_255, Nat.testBit_two_pow_self, hl]
    · intro b hb
      by_cases hb8 : b < 8
      · simp [Nat.testBit_and, Nat.testBit_xor, testBit_255,
          Nat.testBit_two_pow_of_ne (Ne.symm hb), hb8]
      · have hblt : cur < 2 ^ b := by
          calc cur < 256 := hcur
          _ = 2 ^ 8 := by norm_num
          _ ≤ 2 ^ b := Nat.pow_le_pow_right (by omega) (by omega)
        rw [Nat.testBit_eq_false_of_lt hblt,
          Nat.testBit_eq_false_of_lt (Nat.lt_of_le_of_lt Nat.and_le_left hblt)]
  · simp only [if_pos rfl]
    refine ⟨?_, ?_, ?_⟩
    · have h256 : (256 : Nat) = 2 ^ 8 := by norm_num
      rw [h256] at hcur ⊢
      exact Nat.or_lt_two_pow hcur (Nat.pow_lt_pow_right (by omega) hl)
    · simp [Nat.testBit_or, Nat.testBit_two_pow_self]
    · intro b hb
      simp [Nat.testBit_or, Nat.testBit_two_pow_of_ne (Ne.symm hb)]

/-- C8: for every line in `0..16` and every prior mask state,
`set_mask(line, enabled)` leaves the pair state untouched and performs
exactly one read of, and one write to, the data port of the controller
owning the line (master for 0–7, slave for 8–15); the written byte agrees
with the byte read on every bit other than `line mod 8`, and its bit
`line mod 8` is set exactly when `enabled` is. -/
theorem set_mask_spec (hw : Nat → Nat) (pair : PICPair) (irq : Nat) (enable : Bool)
    (hirq : irq < 16) :
    (PICPair.set_mask hw pair irq enable).1 = pair ∧
    ∃ w : Nat,
      (PICPair.set_mask hw pair irq enable).2 =
        [IOEvent.readEv (if irq < 8 then pair.master_pic.data_port else pair.slave_pic.data_port)
            (hw (if irq < 8 then pair.master_pic.data_port else pair.slave_pic.data_port) % 256),
          IOEvent.writeEv
            (if irq < 8 then pair.master_pic.data_port else pair.slave_pic.data_port) w] ∧
      w.testBit (irq % 8) = enable ∧
      ∀ b, b ≠ irq % 8 →
        w.testBit b =
          (hw (if irq < 8 then pair.master_pic.data_port else pair.slave_pic.data_port)
            % 256).testBit b := by
  refine ⟨rfl, ?_⟩
  by_cases h8 : irq < 8
  · have hmod : irq % 8 = irq := Nat.mod_eq_of_lt h8
    have hmask : (1 <<< irq) % 256 = 2 ^ irq := by
      rw [Nat.one_shiftLeft]
      exact Nat.mod_eq_of_lt (Nat.pow_lt_pow_right (by omega) h8)
    have hspec := byte_update_testBit (hw pair.master_pic.data_port % 256) irq enable
      (Nat.mod_lt _ (by omega)) h8
    refine ⟨if enable = true then hw pair.master_pic.data_port % 256 ||| 2 ^ irq
        else hw pair.master_pic.data_port % 256 &&& (255 ^^^ 2 ^ irq), ?_, ?_, ?_⟩
    · simp only [PICPair.set_mask, if_pos h8, hmask]
      rw [Nat.mod_eq_of_lt hspec.1]
    · rw [hmod]; exact hspec.2.1
    · intro b hb
      rw [hmod] at hb
      simp only [if_pos h8]
      exact hspec.2.2 b hb
  · have hmod : irq % 8 = irq - 8 := by omega
    have hl8 : irq - 8 < 8 := by omega
    have hmask : (1 <<< (irq - 8)) % 256 = 2 ^ (irq - 8) := by
      rw [Nat.one_shiftLeft]
      exact Nat.mod_eq_of_lt (Nat.pow_lt_pow_right (by omega) hl8)
    have hspec := byte_update_testBit (hw pair.slave_pic.data_port % 256) (irq - 8) enable
      (Nat.mod_lt _ (by omega)) hl8
    refine ⟨if enable = true then hw pair.slave_pic.data_port % 256 ||| 2 ^ (irq - 8)
        else hw pair.slave_pic.data_port % 256 &&& (255 ^^^ 2 ^ (irq - 8)), ?_, ?_, ?_⟩
    · simp only [PICPair.set_mask, if_neg h8, hmask]
      rw [Nat.mod_eq_of_lt hspec.1]
    · rw [hmod]; exact hspec.2.1
    · intro b hb
      rw [hmod] at hb
      simp only [if_neg h8]
      exact hspec.2.2 b hb

/-! ### Theorems about the fixed-size-class heap allocator -/

theorem position_cons (p : α → Bool) (a : α) (as : List α) :
    position p (a :: as) = if p a then some 0 else (position p as).map (· + 1) := rfl

theorem position_eq_some_spec {p : α → Bool} :
    ∀ {l : List α} {i : Nat}, position p l = some i →
      i < l.length ∧ ∀ d, p (l.getD i d) = true ∧ ∀ j, j < i → p (l.getD j d) = false := by
  intro l
  induction l with
  | nil => intro i h; exact absurd h (by simp [position])
  | cons a as ih =>
    intro i h
    rw [position_cons] at h
    by_cases hpa : p a
    · rw [if_pos hpa] at h
      obtain rfl : 0 = i := Option.some.inj h
      exact ⟨by simp, fun d => ⟨by simpa using hpa, fun j hj => by omega⟩⟩
    · rw [if_neg hpa] at h
      obtain ⟨i', hi', rfl⟩ := Option.map_eq_some'.mp h
      obtain ⟨hlt, hspec⟩ := ih hi'
      refine ⟨by simpa using hlt, fun d => ⟨by simpa using (hspec d).1, ?_⟩⟩
      intro j hj
      cases j with
      | zero => simpa using hpa
      | succ j' => simpa using (hspec d).2 j' (by omega)

theorem position_eq_none_spec {p : α → Bool} :
    ∀ {l : List α}, position p l = none → ∀ a ∈ l, p a = false := by
  intro l
  induction l with
  | nil => intro _ a ha; simp at ha
  | cons a as ih =>
    intro h b hb
    rw [position_cons] at h
    by_cases hpa : p a
    · rw [if_pos hpa] at h; exact absurd h (by simp)
    · rw [if_neg hpa] at h
      rcases List.mem_cons.mp hb with rfl | hb'
      · simpa using hpa
      · exact ih (Option.map_eq_none'.mp h) b hb'

theorem set_getElem_self (l : List (Option Nat)) (i : Nat) (hi : i < l.length) :
    l.set i (l[i]?.getD none) = l := by
  apply List.ext_getElem?
  intro n
  by_cases hn : i = n
  · subst hn
    rw [List.getElem?_set_self hi]
    simp [List.getElem?_eq_getElem hi]
  · rw [List.getElem?_set_ne hn]

/-- C9: whenever `alloc` returns the null pointer — either because no size
class fits the layout or because the fitting class's free list is empty —
the allocator state (every class head and the node store) is exactly as it
was before the call. -/
theorem alloc_failure_preserves_state (s : FixedSizeAllocator) (layout : Layout)
    (h : (s.alloc layout).1 = none) : (s.alloc layout).2 = s := by
  cases hbs : block_size_for layout with
  | none => simp [FixedSizeAllocator.alloc, hbs]
  | some idx =>
    cases hh : s.heads.getD idx none with
    | none =>
      have hh' : s.heads[idx]?.getD none = none := by simpa using hh
      simp [FixedSizeAllocator.alloc, hbs, hh']
    | some a =>
      have hh' : s.heads[idx]?.getD none = some a := by simpa using hh
      simp [FixedSizeAllocator.alloc, hbs, hh'] at h

theorem alloc_failure_preserves_state_witness :
    (FixedSizeAllocator.new.alloc { size := 1, align := 1 }).1 = none ∧
    (FixedSizeAllocator.new.alloc { size := 1, align := 1 }).2 = FixedSizeAllocator.new :=
  ⟨rfl, alloc_failure_preserves_state FixedSizeAllocator.new { size := 1, align := 1 } rfl⟩

/-- C3: `allocate` selects the smallest size class whose block size is at
least `max(size, alignment)`; if no class is that large, or if the selected
class's free list is empty, it returns the null pointer with the state
untouched (no fallback to any other class); otherwise it unlinks the head
node of that class's list and returns its address.  In particular, on the
ladder `{8, …, 4096}` (heap initialized over 800 bytes with the fixed
distribution) an 8-byte-aligned 1-byte request is served from the 8-byte
class, and a 4097-byte request reports exhaustion even though other
classes still have free blocks. -/
theorem alloc_class_selection :
    (∀ layout idx, block_size_for layout = some idx →
      idx < BLOCK_SIZES.length ∧
      layout.size.max layout.align ≤ BLOCK_SIZES.getD idx 0 ∧
      ∀ j, j < idx → BLOCK_SIZES.getD j 0 < layout.size.max layout.align) ∧
    (∀ (s : FixedSizeAllocator) layout, block_size_for layout = none →
      s.alloc layout = (none, s)) ∧
    (∀ (s : FixedSizeAllocator) layout idx, block_size_for layout = some idx →
      s.heads.getD idx none = none → s.alloc layout = (none, s)) ∧
    (∀ (s : FixedSizeAllocator) layout idx a, block_size_for layout = some idx →
      s.heads.getD idx none = some a →
      (s.alloc layout).1 = some a ∧
      (s.alloc layout).2.heads = s.heads.set idx ((s.mem a).getD none)) ∧
    (block_size_for { size := 1, align := 8 } = some 0 ∧
      ((FixedSizeAllocator.new.init 0 800).alloc { size := 1, align := 8 }).1 = some 0 ∧
      block_size_for { size := 4097, align := 1 } = none ∧
      ((FixedSizeAllocator.new.init 0 800).alloc { size := 4097, align := 1 }).1 = none ∧
      freeList (FixedSizeAllocator.new.init 0 800) 1 20 ≠ []) := by
  refine ⟨?_, ?_, ?_, ?_, ?_⟩
  · intro layout idx h
    obtain ⟨hlt, hspec⟩ := position_eq_some_spec h
    refine ⟨hlt, of_decide_eq_true (hspec 0).1, ?_⟩
    intro j hj
    exact Nat.lt_of_not_le (of_decide_eq_false ((hspec 0).2 j hj))
  · intro s layout h
    simp [FixedSizeAllocator.alloc, h]
  · intro s layout idx h hh
    have hh' : s.heads[idx]?.getD none = none := by simpa using hh
    simp [FixedSizeAllocator.alloc, h, hh']
  · intro s layout idx a h hh
    have hh' : s.heads[idx]?.getD none = some a := by simpa using hh
    simp [FixedSizeAllocator.alloc, h, hh']
  · exact ⟨by decide, by decide, by decide, by decide, by decide⟩

theorem alloc_class_selection_witness :
    (1 : Nat).max 8 ≤ BLOCK_SIZES.getD 0 0 ∧
    (FixedSizeAllocator.new.alloc { size := 1, align := 1 } =
      (none, FixedSizeAllocator.new)) :=
  ⟨(alloc_class_selection.1 { size := 1, align := 8 } 0 (by decide)).2.1,
    alloc_class_selection.2.2.1 FixedSizeAllocator.new { size := 1, align := 1 } 0
      (by decide) rfl⟩

/-- C4: for every allocator state and layout whose derived size class
exists, deallocating a pointer `p` with that layout and then immediately
allocating with the same layout returns exactly `p`, and the class heads
are restored to what they were before the deallocation (`deallocate`
pushes the block onto the head of the rederived class's list and
`allocate` pops the head of the same list). -/
theorem dealloc_then_alloc (s : FixedSizeAllocator) (ptr : Nat) (layout : Layout)
    (hlen : s.heads.length = 10) (idx : Nat) (hidx : block_size_for layout = some idx) :
    ((s.dealloc ptr layout).alloc layout).1 = some ptr ∧
    ((s.dealloc ptr layout).alloc layout).2.heads = s.heads := by
  have hlt : idx < 10 := by
    have := (position_eq_some_spec hidx).1
    simpa [BLOCK_SIZES] using this
  have hlt' : idx < s.heads.length := by omega
  have hgetset : (s.heads.set idx (some ptr))[idx]?.getD none = some ptr := by
    simp [List.getElem?_set_self hlt']
  have hmem : (memUpdate s.mem ptr (s.heads[idx]?.getD none)) ptr
      = some (s.heads[idx]?.getD none) := by simp [memUpdate]
  have hfin := set_getElem_self s.heads idx hlt'
  constructor
  · simp [FixedSizeAllocator.dealloc, FixedSizeAllocator.alloc, hidx, hgetset]
  · simp [FixedSizeAllocator.dealloc, FixedSizeAllocator.alloc, hidx, hgetset, hmem,
      List.set_set, hfin]

theorem dealloc_then_alloc_witness :
    (((FixedSizeAllocator.new.init 0 800).dealloc 500
        { size := 1, align := 1 }).alloc { size := 1, align := 1 }).1 = some 500 :=
  (dealloc_then_alloc (FixedSizeAllocator.new.init 0 800) 500 { size := 1, align := 1 }
    (by decide) 0 (by decide)).1

theorem set_mask_spec_witness :
    (PICPair.new.set_mask (fun _ => 10) 3 true).1 = PICPair.new ∧
    (PICPair.new.set_mask (fun _ => 10) 11 false).1 = PICPair.new :=
  ⟨(set_mask_spec (fun _ => 10) PICPair.new 3 true (by decide)).1,
    (set_mask_spec (fun _ => 10) PICPair.new 11 false (by decide)).1⟩

/-! ### Theorems about the frame allocator -/

theorem stepBy4096_aligned (sn en : Nat) :
    stepBy4096 (sn * 4096) (en * 4096) = (List.range (en - sn)).map fun k => (sn + k) * 4096 := by
  unfold stepBy4096
  have hcount : (en * 4096 - sn * 4096 + 4095) / 4096 = en - sn := by omega
  rw [hcount]
  apply List.map_congr_left
  intro k _
  ring

theorem flatMap_congr_fun {l : List α} {f g : α → List β} (h : ∀ a ∈ l, f a = g a) :
    l.flatMap f = l.flatMap g := by
  rw [List.flatMap_def, List.flatMap_def]
  exact congrArg List.flatten (List.map_congr_left h)

/-- `usable_frames` flattens each usable region into the 4096-multiples of
its frame-number range (the `containing_address` pass is the identity
there, since region bounds are frame-aligned by construction). -/
theorem usable_frames_eq (mm : MemoryMap) :
    usable_frames mm =
      (mm.filter fun r => r.region_type == MemoryRegionType.Usable).flatMap fun r =>
        (List.range (r.range.end_frame_number - r.range.start_frame_number)).map fun k =>
          (r.range.start_frame_number + k) * 4096 := by
  unfold usable_frames
  rw [List.map_flatMap]
  apply flatMap_congr_fun
  intro r _
  rw [show r.range.start_addr = r.range.start_frame_number * 4096 from rfl,
    show r.range.end_addr = r.range.end_frame_number * 4096 from rfl,
    stepBy4096_aligned, List.map_map]
  apply List.map_congr_left
  intro k _
  simp only [Function.comp_apply, containing_address]
  omega

theorem mem_regionFrames_iff (sn en f : Nat) :
    (f ∈ (List.range (en - sn)).map fun k => (sn + k) * 4096) ↔
      4096 ∣ f ∧ sn * 4096 ≤ f ∧ f + 4096 ≤ en * 4096 := by
  simp only [List.mem_map, List.mem_range]
  constructor
  · rintro ⟨k, hk, rfl⟩
    exact ⟨⟨sn + k, by ring⟩, by omega, by omega⟩
  · rintro ⟨⟨m, rfl⟩, h1, h2⟩
    exact ⟨m - sn, by omega, by omega⟩

theorem runCalls_eq (mm : MemoryMap) :
    ∀ n i, runCalls { memory_map := mm, next := i } n =
      (List.range n).map fun k => (usable_frames mm)[i + k]? := by
  intro n
  induction n with
  | zero => intro i; rfl
  | succ n ih =>
    intro i
    rw [runCalls, List.range_succ_eq_map, List.map_cons, List.map_map]
    refine congrArg₂ _ (by simp [allocate_frame]) ?_
    rw [show (allocate_frame { memory_map := mm, next := i }).2
        = { memory_map := mm, next := i + 1 } from rfl, ih (i + 1)]
    apply List.map_congr_left
    intro k _
    simp [Nat.succ_eq_add_one]
    congr 1
    omega

/-- C1: for every firmware memory map (regions listed in ascending,
non-overlapping order, as the bootloader hands them over), successive
`allocate_frame()` calls enumerate the `usable_frames` sequence position
by position; that sequence contains a frame exactly when it is a
4096-aligned, 4096-byte slot inside a usable-classified region (hence each
such frame exactly once, by strict sortedness), is strictly increasing
(non-decreasing addresses), never meets a non-usable region, and every
call past the end of the sequence returns `none`. -/
theorem allocate_frame_spec (mm : MemoryMap)
    (hord : mm.Pairwise fun r1 r2 => r1.range.end_addr ≤ r2.range.start_addr) :
    (∀ n, runCalls (InternalFrameAllocator.new mm) n =
      (List.range n).map fun i => (usable_frames mm)[i]?) ∧
    (∀ f, f ∈ usable_frames mm ↔ ∃ r ∈ mm, r.region_type = MemoryRegionType.Usable ∧
      4096 ∣ f ∧ r.range.start_addr ≤ f ∧ f + 4096 ≤ r.range.end_addr) ∧
    (usable_frames mm).Pairwise (· < ·) ∧
    (∀ f ∈ usable_frames mm, ∀ r ∈ mm, r.region_type ≠ MemoryRegionType.Usable →
      f + 4096 ≤ r.range.start_addr ∨ r.range.end_addr ≤ f) ∧
    (∀ i, (usable_frames mm).length ≤ i →
      (allocate_frame { memory_map := mm, next := i }).1 = none) := by
  have hmem : ∀ f, f ∈ usable_frames mm ↔ ∃ r ∈ mm,
      r.region_type = MemoryRegionType.Usable ∧
      4096 ∣ f ∧ r.range.start_addr ≤ f ∧ f + 4096 ≤ r.range.end_addr := by
    intro f
    rw [usable_frames_eq]
    constructor
    · intro hf
      obtain ⟨r, hr, hfr⟩ := List.mem_flatMap.mp hf
      obtain ⟨hrm, hru⟩ := List.mem_filter.mp hr
      obtain ⟨hdvd, h1, h2⟩ := (mem_regionFrames_iff _ _ _).mp hfr
      exact ⟨r, hrm, by simpa using hru, hdvd, h1, h2⟩
    · rintro ⟨r, hrm, hru, hdvd, h1, h2⟩
      exact List.mem_flatMap.mpr ⟨r, List.mem_filter.mpr ⟨hrm, by simpa using hru⟩,
        (mem_regionFrames_iff _ _ _).mpr ⟨hdvd, h1, h2⟩⟩
  refine ⟨fun n => by simpa using runCalls_eq mm n 0, hmem, ?_, ?_, ?_⟩
  · rw [usable_frames_eq, List.flatMap_def, List.pairwise_flatten]
    constructor
    · intro l hl
      obtain ⟨r, _, rfl⟩ := List.mem_map.mp hl
      rw [List.pairwise_map]
      exact (List.pairwise_lt_range _).imp fun hab => by omega
    · rw [List.pairwise_map]
      have hfilt : (mm.filter fun r => r.region_type == MemoryRegionType.Usable).Pairwise
          fun r1 r2 => r1.range.end_addr ≤ r2.range.start_addr :=
        hord.sublist (List.filter_sublist _)
      refine hfilt.imp ?_
      intro r1 r2 h12 x hx y hy
      obtain ⟨_, _, hx2⟩ := (mem_regionFrames_iff _ _ _).mp hx
      obtain ⟨_, hy1, _⟩ := (mem_regionFrames_iff _ _ _).mp hy
      have h12' : r1.range.end_frame_number * 4096 ≤ r2.range.start_frame_number * 4096 := h12
      omega
  · intro f hf r hr hrne
    obtain ⟨r1, hr1m, hr1u, _, h1, h2⟩ := (hmem f).mp hf
    have hne : r1 ≠ r := fun hcontra => hrne (hcontra ▸ hr1u)
    have hsym : (mm.Pairwise fun a b =>
        (a.range.end_addr ≤ b.range.start_addr) ∨ (b.range.end_addr ≤ a.range.start_addr)) :=
      hord.imp Or.inl
    have hrel := hsym.forall (fun _ _ h => h.symm) hr1m hr hne
    rcases hrel with h12 | h21
    · exact Or.inl (le_trans h2 h12)
    · exact Or.inr (le_trans h21 h1)
  · intro i hi
    simp [allocate_frame, List.getElem?_eq_none hi]

theorem allocate_frame_spec_witness :
    runCalls (InternalFrameAllocator.new
      [{ range := { start_frame_number := 0, end_frame_number := 2 },
         region_type := MemoryRegionType.Usable },
       { range := { start_frame_number := 2, end_frame_number := 3 },
         region_type := MemoryRegionType.Reserved },
       { range := { start_frame_number := 3, end_frame_number := 5 },
         region_type := MemoryRegionType.Usable }]) 5 =
      [some 0, some 4096, some 12288, some 16384, none] :=
  ((allocate_frame_spec
      [{ range := { start_frame_number := 0, end_frame_number := 2 },
         region_type := MemoryRegionType.Usable },
       { range := { start_frame_number := 2, end_frame_number := 3 },
         region_type := MemoryRegionType.Reserved },
       { range := { start_frame_number := 3, end_frame_number := 5 },
         region_type := MemoryRegionType.Usable }] (by decide)).1 5).trans (by decide)

theorem applyCalls_state (mm : MemoryMap) :
    ∀ k i, applyCalls { memory_map := mm, next := i } k = { memory_map := mm, next := i + k } := by
  intro k
  induction k with
  | zero => intro i; rfl
  | succ k ih =>
    intro i
    rw [applyCalls, show (allocate_frame { memory_map := mm, next := i }).2
        = { memory_map := mm, next := i + 1 } from rfl, ih (i + 1)]
    congr 1
    omega

/-- C10: frame-allocator exhaustion is permanent: once `allocate_frame()`
returns `none`, every later call on the same memory map also returns
`none`, because the position counter only grows and the usable-frame
sequence is fixed. -/
theorem allocate_frame_none_forever (mm : MemoryMap) (i : Nat)
    (h : (allocate_frame { memory_map := mm, next := i }).1 = none) :
    ∀ k, (allocate_frame (applyCalls { memory_map := mm, next := i } k)).1 = none := by
  intro k
  have hlen : (usable_frames mm).length ≤ i :=
    List.getElem?_eq_none_iff.mp (h : (usable_frames mm)[i]? = none)
  rw [applyCalls_state]
  simp [allocate_frame, List.getElem?_eq_none (show (usable_frames mm).length ≤ i + k by omega)]

theorem allocate_frame_none_forever_witness :
    (allocate_frame (applyCalls { memory_map := ([] : MemoryMap), next := 0 } 3)).1 = none :=
  allocate_frame_none_forever [] 0 rfl 3

/-! ### Theorems about heap initialization (`init` / `create_blocks`) -/

theorem set_getD_ne (l : List α) (i j : Nat) (a d : α) (h : i ≠ j) :
    (l.set i a).getD j d = l.getD j d := by
  simp [List.getD_eq_getElem?_getD, List.getElem?_set_ne h]

theorem set_getD_eq (l : List α) (i : Nat) (a d : α) (h : i < l.length) :
    (l.set i a).getD i d = a := by
  simp [List.getD_eq_getElem?_getD, List.getElem?_set_self h]

/-- Full characterization of the `create_blocks` loop: how it changes the
class heads, which store cells it writes (the `count` node slots, plus the
`next` field of the previous node when one was passed in), and that it
touches nothing else. -/
theorem createBlocksAux_spec (hi bs : Nat) (hbs : 0 < bs) :
    ∀ (n addr : Nat) (prev : Option Nat) (s : FixedSizeAllocator),
      (∀ p, prev = some p → ∀ k, k < n → p ≠ addr + k * bs) →
      ((createBlocksAux hi bs n addr prev s).heads.length = s.heads.length) ∧
      (n = 0 → createBlocksAux hi bs n addr prev s = s) ∧
      (prev = none → 0 < n →
        (createBlocksAux hi bs n addr prev s).heads = s.heads.set hi (some addr)) ∧
      (∀ p, prev = some p → (createBlocksAux hi bs n addr prev s).heads = s.heads) ∧
      (∀ x, (∀ k, k < n → x ≠ addr + k * bs) → (∀ p, prev = some p → x ≠ p) →
        (createBlocksAux hi bs n addr prev s).mem x = s.mem x) ∧
      (∀ k, k < n → (createBlocksAux hi bs n addr prev s).mem (addr + k * bs) =
        some (if k + 1 < n then some (addr + (k + 1) * bs) else none)) ∧
      (∀ p, prev = some p → 0 < n →
        (createBlocksAux hi bs n addr prev s).mem p = some (some addr)) := by
  intro n
  induction n with
  | zero =>
    intro addr prev s _
    exact ⟨rfl, fun _ => rfl, fun _ h => absurd h (by omega), fun _ _ => rfl,
      fun _ _ _ => rfl, fun k hk => absurd hk (by omega), fun _ _ h => absurd h (by omega)⟩
  | succ n ih =>
    intro addr prev s hcon
    cases prev with
    | none =>
      have hunf : createBlocksAux hi bs (n + 1) addr none s =
          createBlocksAux hi bs n (addr + bs) (some addr)
            { heads := s.heads.set hi (some addr), mem := memUpdate s.mem addr none } := rfl
      rw [hunf]
      have hcon' : ∀ p, (some addr : Option Nat) = some p → ∀ k, k < n →
          p ≠ addr + bs + k * bs := by
        intro p hp k _
        obtain rfl : addr = p := Option.some.inj hp
        omega
      obtain ⟨ihlen, ihzero, _, ihheads, ihframe, ihchain, ihlink⟩ :=
        ih (addr + bs) (some addr)
          { heads := s.heads.set hi (some addr), mem := memUpdate s.mem addr none } hcon'
      refine ⟨by rw [ihlen]; simp, fun h => absurd h (by omega), ?_, ?_, ?_, ?_, ?_⟩
      · intro _ _
        exact ihheads addr rfl
      · intro p hp
        exact absurd hp (by simp)
      · intro x hx _
        have hxaddr : x ≠ addr := by have := hx 0 (by omega); omega
        have hx' : ∀ k, k < n → x ≠ addr + bs + k * bs := by
          intro k hk
          have e : addr + (k + 1) * bs = addr + bs + k * bs := by ring
          have := hx (k + 1) (by omega)
          omega
        rw [ihframe x hx' (fun p hp => by obtain rfl : addr = p := Option.some.inj hp
                                          exact hxaddr)]
        simp [memUpdate, hxaddr]
      · intro k hk
        cases k with
        | zero =>
          have e0 : addr + 0 * bs = addr := by ring
          rw [e0]
          by_cases hn : 0 < n
          · rw [if_pos (by omega)]
            have e1 : addr + (0 + 1) * bs = addr + bs := by ring
            rw [e1]
            exact ihlink addr rfl hn
          · have hn0 : n = 0 := by omega
            subst hn0
            rw [ihzero rfl]
            rw [if_neg (by omega)]
            simp [memUpdate]
        | succ k' =>
          have e2 : addr + (k' + 1) * bs = addr + bs + k' * bs := by ring
          have e3 : addr + (k' + 1 + 1) * bs = addr + bs + (k' + 1) * bs := by ring
          rw [e2, e3, ihchain k' (by omega)]
          congr 1
          refine if_congr ?_ rfl rfl
          omega
      · intro p hp
        exact absurd hp (by simp)
    | some p =>
      have hunf : createBlocksAux hi bs (n + 1) addr (some p) s =
          createBlocksAux hi bs n (addr + bs) (some addr)
            { heads := s.heads,
              mem := memUpdate (memUpdate s.mem addr none) p (some addr) } := rfl
      rw [hunf]
      have hpaddr : p ≠ addr := by
        have := hcon p rfl 0 (by omega)
        omega
      have hcon' : ∀ q, (some addr : Option Nat) = some q → ∀ k, k < n →
          q ≠ addr + bs + k * bs := by
        intro q hq k _
        obtain rfl : addr = q := Option.some.inj hq
        omega
      obtain ⟨ihlen, ihzero, _, ihheads, ihframe, ihchain, ihlink⟩ :=
        ih (addr + bs) (some addr)
          { heads := s.heads,
            mem := memUpdate (memUpdate s.mem addr none) p (some addr) } hcon'
      have hpframe : ∀ k, k < n → p ≠ addr + bs + k * bs := by
        intro k hk
        have e : addr + (k + 1) * bs = addr + bs + k * bs := by ring
        have := hcon p rfl (k + 1) (by omega)
        omega
      refine ⟨by rw [ihlen], fun h => absurd h (by omega), ?_, ?_, ?_, ?_, ?_⟩
      · intro h
        exact absurd h (by simp)
      · intro q _
        exact ihheads addr rfl
      · intro x hx hxp
        have hxaddr : x ≠ addr := by have := hx 0 (by omega); omega
        have hx' : ∀ k, k < n → x ≠ addr + bs + k * bs := by
          intro k hk
          have e : addr + (k + 1) * bs = addr + bs + k * bs := by ring
          have := hx (k + 1) (by omega)
          omega
        rw [ihframe x hx' (fun q hq => by obtain rfl : addr = q := Option.some.inj hq
                                          exact hxaddr)]
        simp [memUpdate, hxaddr, hxp p rfl]
      · intro k hk
        cases k with
        | zero =>
          have e0 : addr + 0 * bs = addr := by ring
          rw [e0]
          by_cases hn : 0 < n
          · rw [if_pos (by omega)]
            have e1 : addr + (0 + 1) * bs = addr + bs := by ring
            rw [e1]
            exact ihlink addr rfl hn
          · have hn0 : n = 0 := by omega
            subst hn0
            rw [ihzero rfl]
            rw [if_neg (by omega)]
            simp [memUpdate, Ne.symm hpaddr]
        | succ k' =>
          have e2 : addr + (k' + 1) * bs = addr + bs + k' * bs := by ring
          have e3 : addr + (k' + 1 + 1) * bs = addr + bs + (k' + 1) * bs := by ring
          rw [e2, e3, ihchain k' (by omega)]
          congr 1
          refine if_congr ?_ rfl rfl
          omega
      · intro q hq _
        obtain rfl : p = q := Option.some.inj hq
        rw [ihframe p hpframe (fun q' hq' => by obtain rfl : addr = q' := Option.some.inj hq'
                                                exact hpaddr)]
        simp [memUpdate]

theorem freeListAux_cons (m : Nat → Option (Option Nat)) (a fuel : Nat) :
    freeListAux m (some a) (fuel + 1) =
      a :: (match m a with | none => [] | some nxt => freeListAux m nxt fuel) := rfl

/-- Walking the store from the head of a freshly linked chain of `c`
blocks of size `bs` starting at `st` yields exactly the block addresses in
ascending order, whenever the fuel covers the chain length. -/
theorem freeListAux_chain (m : Nat → Option (Option Nat)) (bs : Nat) :
    ∀ c, 0 < c → ∀ st,
      (∀ k, k < c → m (st + k * bs) = some (if k + 1 < c then some (st + (k + 1) * bs) else none)) →
      ∀ fuel, c ≤ fuel →
        freeListAux m (some st) fuel = (List.range c).map fun k => st + k * bs := by
  intro c
  induction c with
  | zero => intro h; exact absurd h (by omega)
  | succ c' ih =>
    intro _ st hchain fuel hfuel
    obtain ⟨f', rfl⟩ : ∃ f', fuel = f' + 1 := ⟨fuel - 1, by omega⟩
    have h0 := hchain 0 (by omega)
    rw [show st + 0 * bs = st from by ring] at h0
    rw [freeListAux_cons, h0]
    by_cases hc : 0 + 1 < c' + 1
    · rw [if_pos hc]
      show st :: freeListAux m (some (st + (0 + 1) * bs)) f' =
        (List.range (c' + 1)).map fun k => st + k * bs
      have hchain' : ∀ k, k < c' →
          m (st + bs + k * bs) = some (if k + 1 < c' then some (st + bs + (k + 1) * bs) else none) := by
        intro k hk
        have e1 : st + bs + k * bs = st + (k + 1) * bs := by ring
        have e2 : st + bs + (k + 1) * bs = st + (k + 1 + 1) * bs := by ring
        rw [e1, e2, hchain (k + 1) (by omega)]
        congr 1
        refine if_congr ?_ rfl rfl
        omega
      have hrec := ih (by omega) (st + bs) hchain' f' (by omega)
      rw [show st + (0 + 1) * bs = st + bs from by ring, hrec,
        List.range_succ_eq_map, List.map_cons, List.map_map]
      congr 1
      · omega
      · apply List.map_congr_left
        intro k _
        simp [Nat.succ_eq_add_one]
        ring
    · rw [if_neg hc]
      have hc0 : c' = 0 := by omega
      subst hc0
      show st :: freeListAux m none f' = List.map (fun k => st + k * bs) (List.range (0 + 1))
      simp [freeListAux, show List.range 1 = [0] from rfl]

theorem posBS : ∀ i, i < 10 →
    position (fun sz => sz == BLOCK_SIZES.getD i 0) BLOCK_SIZES = some i := by decide

theorem distBS : ∀ i, i < 10 → BLOCK_DISTRIBUTIONS.getD i (0, 1) = (13421773, 134217728) := by
  decide

theorem bsPos : ∀ i, i < 10 → 0 < BLOCK_SIZES.getD i 0 := by decide

theorem newHeads_getD (j : Nat) : FixedSizeAllocator.new.heads.getD j none = none := by
  simp only [FixedSizeAllocator.new, List.getD_eq_getElem?_getD, List.getElem?_replicate]
  split <;> rfl

theorem create_blocks_eq (s : FixedSizeAllocator) (i count off : Nat) (hi : i < 10) :
    s.create_blocks (BLOCK_SIZES.getD i 0) count off =
      createBlocksAux i (BLOCK_SIZES.getD i 0) count off none s := by
  unfold FixedSizeAllocator.create_blocks
  rw [posBS i hi]
  rfl

theorem initAux_cons (heap_size bs : Nat) (rest : List Nat) (idx off : Nat)
    (s : FixedSizeAllocator) :
    initAux heap_size (bs :: rest) idx off s =
      initAux heap_size rest (idx + 1)
        (off + memoryShare (BLOCK_DISTRIBUTIONS.getD idx (0, 1)) heap_size)
        (s.create_blocks bs
          (memoryShare (BLOCK_DISTRIBUTIONS.getD idx (0, 1)) heap_size / bs) off) := rfl

/-- The induction behind C2: running the `init` loop over the remaining
size classes (a suffix of `BLOCK_SIZES` starting at `idx`, with the
running offset `off`) leaves classes below `idx` and store cells below
`off` untouched and, for every remaining class `j`, installs its head at
`off + (j - idx)·share` and a fully linked ascending chain of
`share / size_j` nodes there. -/
theorem initAux_spec (heap_size : Nat) :
    ∀ (sizes : List Nat) (idx off : Nat) (s : FixedSizeAllocator),
      (∀ j, j < sizes.length → sizes.getD j 0 = BLOCK_SIZES.getD (idx + j) 0) →
      idx + sizes.length = 10 →
      s.heads.length = 10 →
      ((initAux heap_size sizes idx off s).heads.length = 10) ∧
      (∀ j, j < idx →
        (initAux heap_size sizes idx off s).heads.getD j none = s.heads.getD j none) ∧
      (∀ x, x < off → (initAux heap_size sizes idx off s).mem x = s.mem x) ∧
      (∀ j, idx ≤ j → j < 10 →
        ((initAux heap_size sizes idx off s).heads.getD j none =
          (if memoryShare (13421773, 134217728) heap_size / BLOCK_SIZES.getD j 0 = 0
            then s.heads.getD j none
            else some (off + (j - idx) * memoryShare (13421773, 134217728) heap_size))) ∧
        (∀ k, k < memoryShare (13421773, 134217728) heap_size / BLOCK_SIZES.getD j 0 →
          (initAux heap_size sizes idx off s).mem
              (off + (j - idx) * memoryShare (13421773, 134217728) heap_size
                + k * BLOCK_SIZES.getD j 0) =
            some (if k + 1 < memoryShare (13421773, 134217728) heap_size / BLOCK_SIZES.getD j 0
              then some (off + (j - idx) * memoryShare (13421773, 134217728) heap_size
                + (k + 1) * BLOCK_SIZES.getD j 0)
              else none))) := by
  intro sizes
  induction sizes with
  | nil =>
    intro idx off s _ hlen _
    refine ⟨by simpa using ‹s.heads.length = 10›, fun _ _ => rfl, fun _ _ => rfl, ?_⟩
    intro j hj1 hj2
    exact absurd (by simpa using hlen : idx = 10) (by omega)
  | cons bs rest ih =>
    intro idx off s hsz hlen hheads
    have hidx : idx < 10 := by
      simp only [List.length_cons] at hlen
      omega
    have hbs : bs = BLOCK_SIZES.getD idx 0 := by
      have h := hsz 0 (by simp)
      simpa using h
    subst hbs
    rw [initAux_cons, distBS idx hidx, create_blocks_eq s idx _ off hidx]
    set sh := memoryShare (13421773, 134217728) heap_size with hshdef
    set bsz := BLOCK_SIZES.getD idx 0 with hbszdef
    set cnt := sh / bsz with hcntdef
    have hbsz : 0 < bsz := bsPos idx hidx
    obtain ⟨l1len, l1zero, l1headset, _, l1frame, l1chain, _⟩ :=
      createBlocksAux_spec idx bsz hbsz cnt off none s (fun p hp => nomatch hp)
    set s1 := createBlocksAux idx bsz cnt off none s with hs1def
    have hlen1 : s1.heads.length = 10 := by rw [l1len, hheads]
    have hheads1_ne : ∀ j, j ≠ idx → s1.heads.getD j none = s.heads.getD j none := by
      intro j hj
      by_cases hcnt : cnt = 0
      · rw [l1zero hcnt]
      · rw [l1headset rfl (Nat.pos_of_ne_zero hcnt)]
        exact set_getD_ne _ _ _ _ _ (Ne.symm hj)
    have hheads1_idx : s1.heads.getD idx none =
        if cnt = 0 then s.heads.getD idx none else some off := by
      by_cases hcnt : cnt = 0
      · rw [l1zero hcnt, if_pos hcnt]
      · rw [l1headset rfl (Nat.pos_of_ne_zero hcnt), if_neg hcnt]
        exact set_getD_eq _ _ _ _ (by omega)
    have hcntbs : cnt * bsz ≤ sh := Nat.div_mul_le_self sh bsz
    have hnode_lt : ∀ k, k < cnt → off + k * bsz + bsz ≤ off + sh := by
      intro k hk
      have h1 : (k + 1) * bsz ≤ cnt * bsz := Nat.mul_le_mul_right bsz (by omega)
      have h2 : (k + 1) * bsz = k * bsz + bsz := by ring
      omega
    have hmem1_frame : ∀ x, x < off → s1.mem x = s.mem x := by
      intro x hx
      refine l1frame x ?_ (fun p hp => nomatch hp)
      intro k _
      omega
    have hsz' : ∀ j, j < rest.length →
        rest.getD j 0 = BLOCK_SIZES.getD (idx + 1 + j) 0 := by
      intro j hj
      have h := hsz (j + 1) (by simp; omega)
      rw [List.getD_cons_succ] at h
      rw [h]
      congr 1
      omega
    have hlen' : idx + 1 + rest.length = 10 := by
      simp only [List.length_cons] at hlen
      omega
    obtain ⟨ihlen, ihlt, ihframe, ihmain⟩ := ih (idx + 1) (off + sh) s1 hsz' hlen' hlen1
    refine ⟨ihlen, ?_, ?_, ?_⟩
    · intro j hj
      rw [ihlt j (by omega)]
      exact hheads1_ne j (by omega)
    · intro x hx
      rw [ihframe x (by omega)]
      exact hmem1_frame x hx
    · intro j hj1 hj2
      rcases Nat.eq_or_lt_of_le hj1 with rfl | hjgt
      · -- the class being carved in this step
        constructor
        · rw [ihlt idx (by omega), hheads1_idx]
          rw [show idx - idx = 0 from by omega]
          rw [show off + 0 * sh = off from by ring]
        · intro k hk
          have haddr : off + (idx - idx) * sh + k * bsz = off + k * bsz := by
            rw [show idx - idx = 0 from by omega]; ring
          have haddr' : off + (idx - idx) * sh + (k + 1) * bsz = off + (k + 1) * bsz := by
            rw [show idx - idx = 0 from by omega]; ring
          rw [haddr, haddr']
          rw [ihframe _ (by have := hnode_lt k hk
                            omega)]
          exact l1chain k hk
      · -- a later class: handled by the recursive call, with shifted base
        have hjne : j ≠ idx := by omega
        obtain ⟨a, ha⟩ : ∃ a, j - idx = a + 1 := ⟨j - idx - 1, by omega⟩
        have ea : off + sh + (j - (idx + 1)) * sh = off + (j - idx) * sh := by
          rw [show j - (idx + 1) = a from by omega, ha]
          ring
        obtain ⟨ihh, ihc⟩ := ihmain j (by omega) hj2
        constructor
        · rw [ihh, hheads1_ne j hjne, ea]
        · intro k hk
          have h := ihc k hk
          rw [ea] at h
          exact h

/-- C2: for every heap base address and size, after `init(base, size)` the
free list of size class `i` consists of exactly `⌊share / size_i⌋` nodes —
`share` being the class's byte allocation computed from the fixed
distribution table (each entry the binary32 value of 10 %, applied to the
size with binary32 arithmetic, exactly as the source computes it) — linked
in ascending address order starting at that class's region start
`base + i·share`; and no node address appears in two different classes'
lists. -/
theorem init_free_lists (heap_address heap_size : Nat) :
    (∀ i, i < 10 → ∀ fuel,
      memoryShare (13421773, 134217728) heap_size / BLOCK_SIZES.getD i 0 ≤ fuel →
      freeList (FixedSizeAllocator.new.init heap_address heap_size) i fuel =
        (List.range (memoryShare (13421773, 134217728) heap_size / BLOCK_SIZES.getD i 0)).map
          fun k => heap_address + i * memoryShare (13421773, 134217728) heap_size
            + k * BLOCK_SIZES.getD i 0) ∧
    (∀ i j fuel1 fuel2, i < 10 → j < 10 → i ≠ j →
      memoryShare (13421773, 134217728) heap_size / BLOCK_SIZES.getD i 0 ≤ fuel1 →
      memoryShare (13421773, 134217728) heap_size / BLOCK_SIZES.getD j 0 ≤ fuel2 →
      ∀ a, a ∈ freeList (FixedSizeAllocator.new.init heap_address heap_size) i fuel1 →
        a ∉ freeList (FixedSizeAllocator.new.init heap_address heap_size) j fuel2) := by
  have hinit : FixedSizeAllocator.new.init heap_address heap_size =
      initAux heap_size BLOCK_SIZES 0 heap_address FixedSizeAllocator.new := rfl
  obtain ⟨_, _, _, hmain⟩ :=
    initAux_spec heap_size BLOCK_SIZES 0 heap_address FixedSizeAllocator.new
      (by intro j hj; rw [Nat.zero_add]) rfl rfl
  set sh := memoryShare (13421773, 134217728) heap_size with hshdef
  have hfl : ∀ i, i < 10 → ∀ fuel, sh / BLOCK_SIZES.getD i 0 ≤ fuel →
      freeList (FixedSizeAllocator.new.init heap_address heap_size) i fuel =
        (List.range (sh / BLOCK_SIZES.getD i 0)).map
          fun k => heap_address + i * sh + k * BLOCK_SIZES.getD i 0 := by
    intro i hi fuel hfuel
    obtain ⟨hh, hc⟩ := hmain i (by omega) hi
    simp only [Nat.sub_zero] at hh hc
    unfold freeList
    rw [hinit, hh]
    by_cases hcnt : sh / BLOCK_SIZES.getD i 0 = 0
    · rw [if_pos hcnt, newHeads_getD, hcnt]
      simp [freeListAux]
    · rw [if_neg hcnt]
      exact freeListAux_chain _ _ _ (Nat.pos_of_ne_zero hcnt) _ hc fuel hfuel
  refine ⟨hfl, ?_⟩
  have key : ∀ i' j' k1 k2, i' < j' → j' < 10 →
      k1 < sh / BLOCK_SIZES.getD i' 0 → k2 < sh / BLOCK_SIZES.getD j' 0 →
      heap_address + i' * sh + k1 * BLOCK_SIZES.getD i' 0 ≠
        heap_address + j' * sh + k2 * BLOCK_SIZES.getD j' 0 := by
    intro i' j' k1 k2 h1 h2 hk1 hk2
    have hb1 : 0 < BLOCK_SIZES.getD i' 0 := bsPos i' (by omega)
    have e1 : (k1 + 1) * BLOCK_SIZES.getD i' 0 ≤
        (sh / BLOCK_SIZES.getD i' 0) * BLOCK_SIZES.getD i' 0 :=
      Nat.mul_le_mul_right _ (by omega)
    have e2 : (sh / BLOCK_SIZES.getD i' 0) * BLOCK_SIZES.getD i' 0 ≤ sh :=
      Nat.div_mul_le_self _ _
    have e3 : (k1 + 1) * BLOCK_SIZES.getD i' 0 =
        k1 * BLOCK_SIZES.getD i' 0 + BLOCK_SIZES.getD i' 0 := by ring
    have e4 : (i' + 1) * sh ≤ j' * sh := Nat.mul_le_mul_right _ (by omega)
    have e5 : (i' + 1) * sh = i' * sh + sh := by ring
    omega
  intro i j fuel1 fuel2 hi hj hij hf1 hf2 a hai haj
  rw [hfl i hi fuel1 hf1] at hai
  rw [hfl j hj fuel2 hf2] at haj
  simp only [List.mem_map, List.mem_range] at hai haj
  obtain ⟨k, hk, rfl⟩ := hai
  obtain ⟨k', hk', heqa⟩ := haj
  rcases Nat.lt_trichotomy i j with hlt | heqq | hgt
  · exact key i j k k' hlt hj hk hk' heqa.symm
  · exact hij heqq
  · exact key j i k' k hgt hi hk' hk heqa

theorem init_free_lists_witness :
    freeList (FixedSizeAllocator.new.init 0 800) 0 10 =
      [0, 8, 16, 24, 32, 40, 48, 56, 64, 72] ∧
    (0 : Nat) ∉ freeList (FixedSizeAllocator.new.init 0 800) 1 10 :=
  ⟨((init_free_lists 0 800).1 0 (by decide) 10 (by decide)).trans (by decide),
    (init_free_lists 0 800).2 0 1 10 10 (by decide) (by decide) (by decide) (by decide)
      (by decide) 0 (by decide)⟩

end OsDev
